import Mathlib

/-!
Verification of the Diopser phase-rotation processor core (src/processor.cpp,
src/processor.h).  The per-sample cascade loop of `DiopserProcessor::processBlock`,
the spread-distribution frequency computation, the spread-zero coefficient-sharing
optimization, the background rebuild `update_and_swap_filters`, and the parameter
smoothers are embedded shallowly below.  Real-valued signal arithmetic is modelled
over `ℝ`; the smoother state (which the repository drives with plain float
parameter values) is modelled over `ℚ` so that its transition system is decidable.
-/

namespace Diopser

/-- Normalized second-order all-pass coefficients (b0, b1, b2, a1, a2), with the
leading denominator coefficient a0 = 1 (the form JUCE stores after normalizing). -/
structure Coeffs where
  b0 : ℝ
  b1 : ℝ
  b2 : ℝ
  a1 : ℝ
  a2 : ℝ

/-- Modelled from the spec: the repository calls
`juce::dsp::IIR::ArrayCoefficients<float>::makeAllPass(sampleRate, frequency, Q)`,
whose source is not part of this repository.  Spec §4.1 gives its formula:
`w0 = 2π·f0/fs`, `alpha = sin(w0)/(2Q)`, and the normalized coefficients
`b0 = (1-alpha)/(1+alpha)`, `b1 = -2cos(w0)/(1+alpha)`, `b2 = 1`,
`a1 = -2cos(w0)/(1+alpha)`, `a2 = (1-alpha)/(1+alpha)`. -/
noncomputable def makeAllPass (fs f0 q : ℝ) : Coeffs :=
  let w0 := 2 * Real.pi * f0 / fs
  let alpha := Real.sin w0 / (2 * q)
  let c := Real.cos w0
  { b0 := (1 - alpha) / (1 + alpha)
  , b1 := (-2 * c) / (1 + alpha)
  , b2 := 1
  , a1 := (-2 * c) / (1 + alpha)
  , a2 := (1 - alpha) / (1 + alpha) }

/-- One per-channel IIR filter instance: two input history samples, two output
history samples, and a reference to the `Coeffs` object it filters with.
The reference is modelled as the index of the stage whose (shared) coefficient
object the filter points at (`juce::dsp::IIR::Filter::coefficients`). -/
structure IIRFilter where
  x1 : ℝ
  x2 : ℝ
  y1 : ℝ
  y2 : ℝ
  coeffRef : ℕ

/-- Modelled from the spec: `juce::dsp::IIR::Filter<float>::processSample` is not
part of the repository; spec §4.2 specifies the direct-form difference equation
`y = b0·x + b1·x1 + b2·x2 - a1·y1 - a2·y2` followed by the history shift
`x2 ← x1, x1 ← x, y2 ← y1, y1 ← y`. -/
noncomputable def IIRFilter.processSample (c : Coeffs) (f : IIRFilter) (x : ℝ) :
    ℝ × IIRFilter :=
  let y := c.b0 * x + c.b1 * f.x1 + c.b2 * f.x2 - c.a1 * f.y1 - c.a2 * f.y2
  (y, { f with x1 := x, x2 := f.x1, y1 := y, y2 := f.y1 })

/-- Feed a list of input samples through one filter with fixed coefficients,
collecting the outputs (used for the impulse-response scenario). -/
noncomputable def filterOutputs (c : Coeffs) : IIRFilter → List ℝ → List ℝ
  | _, [] => []
  | f, x :: xs =>
    let p := IIRFilter.processSample c f x
    p.1 :: filterOutputs c p.2 xs

/-- A fresh per-channel filter with zeroed histories referencing stage `i`. -/
def freshFilter (i : ℕ) : IIRFilter := ⟨0, 0, 0, 0, i⟩

/-- One filter stage: one owned coefficient set plus one filter per channel
(`DiopserProcessor::FilterStage`). -/
structure FilterStage where
  channels : List IIRFilter
  coefficients : Coeffs

/-- Placeholder stage contents: `update_and_swap_filters` fills new stages with
"any 6 length array" of coefficients, to be overwritten on the first processed
sample thanks to `is_initialized = false`. -/
def defaultStage : FilterStage := ⟨[], ⟨0, 0, 0, 0, 0⟩⟩

/-- The filter topology: `DiopserProcessor::Filters`. -/
structure Filters where
  is_initialized : Bool
  stages : List FilterStage

/-- Modelled from the spec: `juce::SmoothedValue<float>` is not part of the
repository.  Spec §4.4 / §3 describe it as current value, target value, per-step
increment, remaining ramp steps and configured ramp length; `set_target` stores a
new target and resets the remaining steps to the ramp length, and `advance`
linearly interpolates one step and decrements, returning the settled target once
the counter reaches 0 (at which point `current == target`). -/
structure Smoother where
  current : ℚ
  target : ℚ
  step : ℚ
  steps_remaining : ℕ
  ramp_length : ℕ
deriving DecidableEq

/-- Whether the smoother is still ramping (`SmoothedValue::isSmoothing`). -/
def Smoother.isSmoothing (s : Smoother) : Bool := s.steps_remaining != 0

/-- Modelled from the spec: `SmoothedValue::setTargetValue`.  A target equal to
the current target leaves the ramp untouched; with a zero-length ramp the value
settles immediately; otherwise the remaining steps reset to the ramp length with
a linear per-step increment. -/
def Smoother.setTarget (s : Smoother) (v : ℚ) : Smoother :=
  if v = s.target then s
  else if s.ramp_length = 0 then ⟨v, v, 0, 0, s.ramp_length⟩
  else ⟨s.current, v, (v - s.current) / (s.ramp_length : ℚ), s.ramp_length, s.ramp_length⟩

/-- Modelled from the spec: `SmoothedValue::getNextValue`.  A settled smoother
keeps returning the target unchanged; otherwise the counter decrements and the
current value takes one linear step, landing exactly on the target when the
counter reaches zero. -/
def Smoother.advance (s : Smoother) : ℚ × Smoother :=
  if s.steps_remaining = 0 then (s.target, s)
  else if s.steps_remaining = 1 then
    (s.target, { s with current := s.target, steps_remaining := 0 })
  else
    (s.current + s.step,
     { s with current := s.current + s.step, steps_remaining := s.steps_remaining - 1 })

/-- Advance a smoother `n` steps, keeping only the state. -/
def Smoother.advanceN (s : Smoother) : ℕ → Smoother
  | 0 => s
  | n + 1 => (s.advance).2.advanceN n

/-- Well-formedness invariant of a smoother: the remaining steps never exceed the
ramp length, and a settled smoother's current value equals its target. -/
def Smoother.WF (s : Smoother) : Prop :=
  s.steps_remaining ≤ s.ramp_length ∧ (s.steps_remaining = 0 → s.current = s.target)

instance (s : Smoother) : Decidable s.WF := by
  unfold Smoother.WF
  infer_instance

/-- `std::clamp(v, lo, hi)`: `v < lo ? lo : (hi < v ? hi : v)`.  The C++ standard
requires `lo ≤ hi`; theorems that depend on the clamped result landing inside
`[lo, hi]` carry that precondition (for this processor it is `5 ≤ fs / 2.1`,
i.e. a sample rate of at least 10.5 Hz). -/
noncomputable def clampC (v lo hi : ℝ) : ℝ :=
  if v < lo then lo else if hi < v then hi else v

/-- The Nyquist-safety bound `below_nyquist_frequency = fs / 2.1` from
`processBlock`. -/
noncomputable def belowNyquist (fs : ℝ) : ℝ := fs / 2.1

/-- `min_filter_frequency` from `processBlock`: the spread window's lower edge,
clamped into `[5, fs / 2.1]`. -/
noncomputable def minFilterFrequency (fs freq spread : ℝ) : ℝ :=
  clampC (freq - spread / 2) 5 (belowNyquist fs)

/-- `max_filter_frequency` from `processBlock`: the spread window's upper edge,
clamped into `[5, fs / 2.1]`. -/
noncomputable def maxFilterFrequency (fs freq spread : ℝ) : ℝ :=
  clampC (freq + spread / 2) 5 (belowNyquist fs)

/-- `frequency_offset_factor` from `processBlock`:
`num_stages == 1 ? 0.5 : stage_idx / (num_stages - 1)`. -/
noncomputable def frequencyOffsetFactor (i N : ℕ) : ℝ :=
  if N = 1 then 0.5 else (i : ℝ) / ((N : ℝ) - 1)

/-- The frequency handed to `makeAllPass` for stage `i` of `N` in the
`!use_single_set_of_coefficients` path of `processBlock`: linear or logarithmic
interpolation across the clamped spread window. -/
noncomputable def stageFrequencySrc (fs freq spread : ℝ) : Bool → ℕ → ℕ → ℝ
  | true, i, N =>
    minFilterFrequency fs freq spread +
      (maxFilterFrequency fs freq spread - minFilterFrequency fs freq spread) *
        frequencyOffsetFactor i N
  | false, i, N =>
    Real.exp (Real.log (minFilterFrequency fs freq spread) +
      (Real.log (maxFilterFrequency fs freq spread) -
          Real.log (minFilterFrequency fs freq spread)) *
        frequencyOffsetFactor i N)

/-- Spec-side clamp, written from the words of §4.3 with the usual mathematical
reading `clamp(x, lo, hi) = min(max(x, lo), hi)`. -/
noncomputable def specClamp (x lo hi : ℝ) : ℝ := min (max x lo) hi

/-- Spec-side stage-frequency definition, written from the words of §4.3 /
claim C2: `f_lo = clamp(f_c - spread/2, 5.0, fs/2.1)`,
`f_hi = clamp(f_c + spread/2, 5.0, fs/2.1)`, `t = (N == 1) ? 0.5 : i/(N-1)`,
then `f_lo + t·(f_hi - f_lo)` in linear mode and
`exp(ln(f_lo) + t·(ln(f_hi) - ln(f_lo)))` in logarithmic mode.  To be compared
against `stageFrequencySrc`, which is translated from the source. -/
noncomputable def stageFrequencySpec (fs fc spread : ℝ) : Bool → ℕ → ℕ → ℝ
  | true, i, N =>
    specClamp (fc - spread / 2) 5 (fs / 2.1) +
      (if N = 1 then 0.5 else (i : ℝ) / ((N : ℝ) - 1)) *
        (specClamp (fc + spread / 2) 5 (fs / 2.1) -
          specClamp (fc - spread / 2) 5 (fs / 2.1))
  | false, i, N =>
    Real.exp (Real.log (specClamp (fc - spread / 2) 5 (fs / 2.1)) +
      (if N = 1 then 0.5 else (i : ℝ) / ((N : ℝ) - 1)) *
        (Real.log (specClamp (fc + spread / 2) 5 (fs / 2.1)) -
          Real.log (specClamp (fc - spread / 2) 5 (fs / 2.1))))

/-- Effective coefficient lookup: dereference a filter's coefficient pointer
against the stage list it indexes into. -/
noncomputable def resolveCoeffs (stages : List FilterStage) : ℕ → Coeffs := fun i =>
  ((stages.get? i).map FilterStage.coefficients).getD ⟨0, 0, 0, 0, 0⟩

/-- The per-stage update loop of `processBlock` (the `for stage_idx` loop):
when `single` (i.e. `use_single_set_of_coefficients`), stage coefficients are
left untouched and every filter is pointed at stage 0's coefficient object;
otherwise each stage's coefficients are recomputed from its spread-distributed
frequency and its filters are pointed at the stage's own object. -/
noncomputable def updateStagesAux (fs : ℝ) (freq res spread : ℚ) (linear single : Bool)
    (N : ℕ) : ℕ → List FilterStage → List FilterStage
  | _, [] => []
  | i, s :: ss =>
    { channels := s.channels.map fun fl => { fl with coeffRef := if single then 0 else i }
    , coefficients :=
        if single then s.coefficients
        else makeAllPass fs (stageFrequencySrc fs (freq : ℝ) (spread : ℝ) linear i N)
          (res : ℝ) } ::
      updateStagesAux fs freq res spread linear single N (i + 1) ss

/-- The coefficient-update block of `processBlock` (lines 327-398): when the
current spread is 0, only stage 0's coefficient object is rewritten (with the
raw, unclamped current frequency) and all filters alias it; otherwise each
stage gets its own spread-distributed coefficients. -/
noncomputable def updateStages (fs : ℝ) (freq res spread : ℚ) (linear : Bool)
    (stages : List FilterStage) : List FilterStage :=
  updateStagesAux fs freq res spread linear (decide (spread = 0)) stages.length 0
    (if spread = 0 then
      match stages with
      | [] => []
      | s0 :: rest => { s0 with coefficients := makeAllPass fs (freq : ℝ) (res : ℝ) } :: rest
    else stages)

/-- Per-block processing context: sample rate, the `smoothing_interval`
parameter, the `filter_spread_linear` flag and the main-bus input channel
count. -/
structure Ctx where
  fs : ℝ
  smoothing_interval : ℤ
  spread_linear : Bool
  input_channels : ℕ

/-- The processor state threaded through the per-sample loop: the active filter
topology, the three parameter smoothers, the recompute countdown
`next_smooth_in` and the remembered `old_filter_spread_linear` flag. -/
structure ProcState where
  filters : Filters
  smFreq : Smoother
  smRes : Smoother
  smSpread : Smoother
  next_smooth_in : ℤ
  old_spread_linear : Bool

/-- `should_apply_smoothing` (processBlock lines 306-309): the countdown has
expired and at least one smoother is still ramping. -/
def shouldApplySmoothing (st : ProcState) : Bool :=
  decide (st.next_smooth_in ≤ 0) &&
    (st.smFreq.isSmoothing || st.smRes.isSmoothing || st.smSpread.isSmoothing)

/-- `should_update_filters` (processBlock lines 310-313). -/
def shouldUpdateFilters (lin : Bool) (st : ProcState) : Bool :=
  !st.filters.is_initialized || (lin != st.old_spread_linear) || shouldApplySmoothing st

/-- `current_filter_frequency` (processBlock lines 315-318): the smoother is
advanced (`getNextValue`) only when smoothing is applied on this sample,
otherwise the unadvanced current value (`getCurrentValue`) is read. -/
def currentFrequency (st : ProcState) : ℚ :=
  if shouldApplySmoothing st then (st.smFreq.advance).1 else st.smFreq.current

/-- `current_filter_resonance` (processBlock lines 319-322). -/
def currentResonance (st : ProcState) : ℚ :=
  if shouldApplySmoothing st then (st.smRes.advance).1 else st.smRes.current

/-- `current_filter_spread` (processBlock lines 323-325). -/
def currentSpread (st : ProcState) : ℚ :=
  if shouldApplySmoothing st then (st.smSpread.advance).1 else st.smSpread.current

/-- The stage list actually used for filtering the current sample: updated by
the coefficient-update block when `should_update_filters && !stages.empty()`,
untouched otherwise. -/
noncomputable def stagesForSample (ctx : Ctx) (st : ProcState) : List FilterStage :=
  if shouldUpdateFilters ctx.spread_linear st && !st.filters.stages.isEmpty then
    updateStages ctx.fs (currentFrequency st) (currentResonance st) (currentSpread st)
      ctx.spread_linear st.filters.stages
  else st.filters.stages

/-- The per-channel inner loop of the cascade (processBlock lines 408-416):
channel `c` is filtered only when `c < input_channels`; filters and samples at
channels at or beyond the input count are left untouched. -/
noncomputable def processStageChannels (resolve : ℕ → Coeffs) (iC : ℕ) :
    ℕ → List IIRFilter → List ℝ → List IIRFilter × List ℝ
  | _, [], xs => ([], xs)
  | _, f :: fls, [] => (f :: fls, [])
  | c, f :: fls, x :: xs =>
    if c < iC then
      ((IIRFilter.processSample (resolve f.coeffRef) f x).2 ::
        (processStageChannels resolve iC (c + 1) fls xs).1,
       (IIRFilter.processSample (resolve f.coeffRef) f x).1 ::
        (processStageChannels resolve iC (c + 1) fls xs).2)
    else
      (f :: (processStageChannels resolve iC (c + 1) fls xs).1,
       x :: (processStageChannels resolve iC (c + 1) fls xs).2)

/-- The stage cascade (processBlock lines 407-417): the per-channel sample
vector is threaded through every stage in order. -/
noncomputable def processCascade (resolve : ℕ → Coeffs) (iC : ℕ) :
    List FilterStage → List ℝ → List FilterStage × List ℝ
  | [], xs => ([], xs)
  | s :: ss, xs =>
    ({ s with channels := (processStageChannels resolve iC 0 s.channels xs).1 } ::
      (processCascade resolve iC ss (processStageChannels resolve iC 0 s.channels xs).2).1,
     (processCascade resolve iC ss (processStageChannels resolve iC 0 s.channels xs).2).2)

/-- One iteration of the per-sample loop of `processBlock` (lines 301-418),
acting on the per-channel sample vector `xs`: decide whether to smooth and
whether to update coefficients, update the stages if so, reset the countdown,
decrement it, set `is_initialized`, remember the spread-linear flag, and run
the cascade. -/
noncomputable def processSampleStep (ctx : Ctx) (st : ProcState) (xs : List ℝ) :
    ProcState × List ℝ :=
  ({ filters := ⟨true, (processCascade (resolveCoeffs (stagesForSample ctx st))
        ctx.input_channels (stagesForSample ctx st) xs).1⟩
   , smFreq := if shouldApplySmoothing st then (st.smFreq.advance).2 else st.smFreq
   , smRes := if shouldApplySmoothing st then (st.smRes.advance).2 else st.smRes
   , smSpread := if shouldApplySmoothing st then (st.smSpread.advance).2 else st.smSpread
   , next_smooth_in :=
       (if shouldUpdateFilters ctx.spread_linear st && !st.filters.stages.isEmpty then
          ctx.smoothing_interval
        else st.next_smooth_in) - 1
   , old_spread_linear := ctx.spread_linear },
   (processCascade (resolveCoeffs (stagesForSample ctx st)) ctx.input_channels
      (stagesForSample ctx st) xs).2)

/-- The whole per-sample loop over a block, sample-major: each entry of the
list is the vector of per-channel samples at one sample index. -/
noncomputable def processSamples (ctx : Ctx) :
    ProcState → List (List ℝ) → ProcState × List (List ℝ)
  | st, [] => (st, [])
  | st, xs :: rest =>
    ((processSamples ctx (processSampleStep ctx st xs).1 rest).1,
     (processSampleStep ctx st xs).2 ::
       (processSamples ctx (processSampleStep ctx st xs).1 rest).2)

/-- The clearing loop at the top of `processBlock` (lines 290-292), per sample
vector: channels with index in `[input_channels, output_channels)` are zeroed. -/
def clearRow (iC oC : ℕ) : ℕ → List ℝ → List ℝ
  | _, [] => []
  | c, x :: xs => (if iC ≤ c ∧ c < oC then (0 : ℝ) else x) :: clearRow iC oC (c + 1) xs

/-- `DiopserProcessor::processBlock`: clear the output-only channels, push the
raw parameter values into the smoother targets, then run every sample through
the per-sample loop. -/
noncomputable def processBlock (ctx : Ctx) (outCh : ℕ) (fT rT sT : ℚ)
    (st : ProcState) (block : List (List ℝ)) : ProcState × List (List ℝ) :=
  processSamples ctx
    { st with
      smFreq := st.smFreq.setTarget fT
    , smRes := st.smRes.setTarget rT
    , smSpread := st.smSpread.setTarget sT }
    (block.map (clearRow ctx.input_channels outCh 0))

/-- A filter's history quadruple (x1, x2, y1, y2). -/
def filterHist (f : IIRFilter) : ℝ × ℝ × ℝ × ℝ := (f.x1, f.x2, f.y1, f.y2)

/-- The history of the channel-`c` filter of stage `k`, if both exist. -/
def histAt (stages : List FilterStage) (k c : ℕ) : Option (ℝ × ℝ × ℝ × ℝ) :=
  (stages.get? k).bind fun s => (s.channels.get? c).map filterHist

/-- The per-stage body of `update_and_swap_filters` (lines 464-481): every
stage's channel vector is resized to the output channel count, and every filter
is reset (histories zeroed) and pointed at its own stage's coefficient object. -/
def rebuildStagesAux (numOut : ℕ) : ℕ → List FilterStage → List FilterStage
  | _, [] => []
  | i, s :: ss =>
    { s with channels := List.replicate numOut (freshFilter i) } ::
      rebuildStagesAux numOut (i + 1) ss

/-- `std::vector::resize` on the stage list: keep the first `n`, append
default-constructed stages as needed. -/
def resizeList (d : FilterStage) (n : ℕ) (l : List FilterStage) : List FilterStage :=
  l.take n ++ List.replicate (n - l.length) d

/-- `DiopserProcessor::update_and_swap_filters` (lines 459-483) applied to the
inactive topology: clear `is_initialized`, resize the stage list to the
requested stage count, and rebuild every stage's per-channel filters. -/
def updateAndSwapFilters (numStages numOut : ℕ) (f : Filters) : Filters :=
  ⟨false, rebuildStagesAux numOut 0 (resizeList defaultStage numStages f.stages)⟩

/-- A concrete context used by concrete instantiations below. -/
noncomputable def sampleCtx : Ctx := ⟨44100, 128, false, 1⟩

/-- A concrete context with two input channels. -/
noncomputable def sampleCtx2 : Ctx := ⟨44100, 128, false, 2⟩

/-- A concrete state with no stages and settled smoothers. -/
noncomputable def emptyState : ProcState :=
  ⟨⟨true, []⟩, ⟨0, 0, 0, 0, 0⟩, ⟨0, 0, 0, 0, 0⟩, ⟨0, 0, 0, 0, 0⟩, 0, false⟩

/-- A concrete state with one placeholder stage and `is_initialized = false`,
as left behind by the background rebuild. -/
noncomputable def initState : ProcState :=
  ⟨⟨false, [defaultStage]⟩, ⟨0, 0, 0, 0, 0⟩, ⟨0, 0, 0, 0, 0⟩, ⟨0, 0, 0, 0, 0⟩, 0, false⟩

/-- A concrete state whose frequency smoother is mid-ramp (3 steps remaining)
while the recompute countdown is still positive (`next_smooth_in = 5`). -/
noncomputable def cexState : ProcState :=
  ⟨⟨true, []⟩, ⟨0, 10, 1, 3, 5⟩, ⟨0, 0, 0, 0, 5⟩, ⟨0, 0, 0, 0, 5⟩, 5, false⟩

theorem Smoother.setTarget_ramp (s : Smoother) (v : ℚ) :
    (s.setTarget v).ramp_length = s.ramp_length := by
  unfold Smoother.setTarget
  by_cases h : v = s.target
  · rw [if_pos h]
  · rw [if_neg h]
    by_cases h0 : s.ramp_length = 0
    · rw [if_pos h0]
    · rw [if_neg h0]

theorem Smoother.setTarget_target (s : Smoother) (v : ℚ) :
    (s.setTarget v).target = v := by
  unfold Smoother.setTarget
  by_cases h : v = s.target
  · rw [if_pos h]
    exact h.symm
  · rw [if_neg h]
    by_cases h0 : s.ramp_length = 0
    · rw [if_pos h0]
    · rw [if_neg h0]

theorem Smoother.setTarget_steps_le (s : Smoother) (v : ℚ) (h : s.WF) :
    (s.setTarget v).steps_remaining ≤ s.ramp_length := by
  unfold Smoother.setTarget
  by_cases hv : v = s.target
  · rw [if_pos hv]
    exact h.1
  · rw [if_neg hv]
    by_cases h0 : s.ramp_length = 0
    · rw [if_pos h0]
      exact Nat.zero_le _
    · rw [if_neg h0]

theorem Smoother.setTarget_wf (s : Smoother) (v : ℚ) (h : s.WF) :
    (s.setTarget v).WF := by
  unfold Smoother.setTarget
  by_cases hv : v = s.target
  · rw [if_pos hv]
    exact h
  · rw [if_neg hv]
    by_cases h0 : s.ramp_length = 0
    · rw [if_pos h0]
      exact ⟨Nat.zero_le _, fun _ => rfl⟩
    · rw [if_neg h0]
      exact ⟨le_refl _, fun hz => absurd hz h0⟩

theorem Smoother.advance_wf (s : Smoother) (h : s.WF) : (s.advance).2.WF := by
  unfold Smoother.advance
  by_cases h0 : s.steps_remaining = 0
  · rw [if_pos h0]
    exact h
  · rw [if_neg h0]
    by_cases h1 : s.steps_remaining = 1
    · rw [if_pos h1]
      exact ⟨Nat.zero_le _, fun _ => rfl⟩
    · rw [if_neg h1]
      exact ⟨le_trans (Nat.sub_le _ _) h.1,
        fun hz => absurd (show s.steps_remaining - 1 = 0 from hz) (by omega)⟩

theorem Smoother.advance_steps_le (s : Smoother) :
    (s.advance).2.steps_remaining ≤ s.steps_remaining := by
  unfold Smoother.advance
  by_cases h0 : s.steps_remaining = 0
  · rw [if_pos h0]
  · rw [if_neg h0]
    by_cases h1 : s.steps_remaining = 1
    · rw [if_pos h1]
      exact Nat.zero_le _
    · rw [if_neg h1]
      exact Nat.sub_le _ _

theorem Smoother.advance_steps (s : Smoother) :
    (s.advance).2.steps_remaining = s.steps_remaining - 1 := by
  unfold Smoother.advance
  by_cases h0 : s.steps_remaining = 0
  · rw [if_pos h0]
    show s.steps_remaining = s.steps_remaining - 1
    omega
  · rw [if_neg h0]
    by_cases h1 : s.steps_remaining = 1
    · rw [if_pos h1]
      show (0 : ℕ) = s.steps_remaining - 1
      omega
    · rw [if_neg h1]

theorem Smoother.advance_current_last (s : Smoother) (h : s.steps_remaining = 1) :
    (s.advance).2.current = s.target := by
  unfold Smoother.advance
  rw [if_neg (by omega), if_pos h]

theorem Smoother.advance_target (s : Smoother) : (s.advance).2.target = s.target := by
  unfold Smoother.advance
  by_cases h0 : s.steps_remaining = 0
  · rw [if_pos h0]
  · rw [if_neg h0]
    by_cases h1 : s.steps_remaining = 1
    · rw [if_pos h1]
    · rw [if_neg h1]

theorem Smoother.advanceN_wf (s : Smoother) (n : ℕ) (h : s.WF) : (s.advanceN n).WF := by
  induction n generalizing s with
  | zero => exact h
  | succ n ih => exact ih _ (s.advance_wf h)

theorem Smoother.advanceN_steps_le (s : Smoother) (n : ℕ) :
    (s.advanceN n).steps_remaining ≤ s.steps_remaining := by
  induction n generalizing s with
  | zero => exact le_refl _
  | succ n ih => exact le_trans (ih _) (s.advance_steps_le)

/-- A settled smoother is a fixed point of `advance`. -/
theorem Smoother.advance_settled (s : Smoother) (h : s.steps_remaining = 0) :
    (s.advance).2 = s := by
  unfold Smoother.advance
  rw [if_pos h]

theorem Smoother.advanceN_settled (s : Smoother) (n : ℕ) (h : s.steps_remaining = 0) :
    s.advanceN n = s := by
  induction n with
  | zero => rfl
  | succ n ih =>
    show ((s.advance).2).advanceN n = s
    rw [s.advance_settled h, ih]

/-- Running a ramping smoother for exactly its remaining step count settles it
exactly on its target. -/
theorem Smoother.advanceN_of_steps (s : Smoother) (n : ℕ) (hn : s.steps_remaining = n)
    (h0 : s.steps_remaining = 0 → s.current = s.target) :
    (s.advanceN n).current = s.target ∧ (s.advanceN n).steps_remaining = 0 ∧
      (s.advanceN n).target = s.target := by
  induction n generalizing s with
  | zero =>
    exact ⟨h0 hn, hn, rfl⟩
  | succ n ih =>
    have hne : s.steps_remaining ≠ 0 := by omega
    have hstep : (s.advance).2.steps_remaining = n := by
      rw [Smoother.advance_steps]
      omega
    have htar : (s.advance).2.target = s.target := s.advance_target
    have hcur : (s.advance).2.steps_remaining = 0 → (s.advance).2.current = (s.advance).2.target := by
      intro hz
      rw [htar]
      exact Smoother.advance_current_last s (by omega)
    have hrec := ih (s.advance).2 hstep hcur
    rw [htar] at hrec
    show ((s.advance).2.advanceN n).current = s.target ∧
      ((s.advance).2.advanceN n).steps_remaining = 0 ∧
      ((s.advance).2.advanceN n).target = s.target
    exact hrec

theorem Smoother.advanceN_add (s : Smoother) (a b : ℕ) :
    s.advanceN (a + b) = (s.advanceN a).advanceN b := by
  induction a generalizing s with
  | zero =>
    rw [Nat.zero_add]
    rfl
  | succ a ih =>
    have h : a + 1 + b = (a + b) + 1 := by omega
    rw [h]
    show ((s.advance).2).advanceN (a + b) = ((s.advance).2.advanceN a).advanceN b
    exact ih (s.advance).2

/-- Advancing at least as many steps as remain settles a smoother on its target. -/
theorem Smoother.advanceN_settle_ge (s : Smoother) (n : ℕ)
    (hn : s.steps_remaining ≤ n)
    (h0 : s.steps_remaining = 0 → s.current = s.target) :
    (s.advanceN n).current = s.target := by
  obtain ⟨m, hm⟩ := Nat.exists_eq_add_of_le hn
  subst hm
  rw [Smoother.advanceN_add]
  have h1 := s.advanceN_of_steps s.steps_remaining rfl h0
  rw [Smoother.advanceN_settled _ m h1.2.1, h1.1]

/-- C9: after `set_target_frequency(x)` with no further target changes, after
`ramp_length` advance steps the smoother's current value equals `x` exactly;
throughout, `steps_remaining` stays within `[0, ramp_length]`, and
`steps_remaining = 0` implies `current = target`. -/
theorem C9_smoothing_settle (s : Smoother) (x : ℚ) (k : ℕ) (hwf : s.WF) :
    ((s.setTarget x).advanceN s.ramp_length).current = x ∧
    ((s.setTarget x).advanceN k).WF ∧
    ((s.setTarget x).advanceN k).steps_remaining ≤ s.ramp_length := by
  have hwf1 : (s.setTarget x).WF := s.setTarget_wf x hwf
  refine ⟨?_, Smoother.advanceN_wf _ k hwf1, ?_⟩
  · have h1 : (s.setTarget x).steps_remaining ≤ s.ramp_length := s.setTarget_steps_le x hwf
    have := Smoother.advanceN_settle_ge (s.setTarget x) s.ramp_length h1 hwf1.2
    rw [this, s.setTarget_target]
  · exact le_trans (Smoother.advanceN_steps_le _ k) (s.setTarget_steps_le x hwf)

/-- Witness for C9 at a concrete smoother: ramp length 4, target 8. -/
theorem C9_smoothing_settle_witness :
    (Smoother.WF ⟨0, 0, 0, 0, 4⟩) ∧
    (((Smoother.setTarget ⟨0, 0, 0, 0, 4⟩ 8).advanceN 4).current = 8 ∧
     ((Smoother.setTarget ⟨0, 0, 0, 0, 4⟩ 8).advanceN 2).WF ∧
     ((Smoother.setTarget ⟨0, 0, 0, 0, 4⟩ 8).advanceN 2).steps_remaining ≤ 4) :=
  ⟨by decide, C9_smoothing_settle ⟨0, 0, 0, 0, 4⟩ 8 2 (by decide)⟩

/-- The coefficients of the concrete scenario: fs = 4 Hz, f0 = 1 Hz, Q = 1. -/
theorem makeAllPass_concrete : makeAllPass 4 1 1 = ⟨1/3, 0, 1, 0, 1/3⟩ := by
  have hw : (2 * Real.pi * 1 / 4 : ℝ) = Real.pi / 2 := by ring
  simp only [makeAllPass, hw, Real.sin_pi_div_two, Real.cos_pi_div_two]
  norm_num

/-- C1: with sample rate 4 Hz, cutoff 1 Hz, Q = 1, the coefficient computation
yields the normalized coefficients b0 = 1/3, b1 = 0, b2 = 1, a1 = 0, a2 = 1/3
(from w0 = π/2, alpha = 1/2), and feeding the impulse [1,0,0,0,0] through a
single freshly-reset stage produces [1/3, 0, 8/9, 0, -8/27] under the difference
equation y[n] = b0·x[n] + b1·x[n-1] + b2·x[n-2] - a1·y[n-1] - a2·y[n-2]. -/
theorem C1_concrete_scenario :
    makeAllPass 4 1 1 = ⟨1/3, 0, 1, 0, 1/3⟩ ∧
    filterOutputs (makeAllPass 4 1 1) (freshFilter 0) [1, 0, 0, 0, 0]
      = [1/3, 0, 8/9, 0, -8/27] := by
  refine ⟨makeAllPass_concrete, ?_⟩
  rw [makeAllPass_concrete]
  simp only [filterOutputs, IIRFilter.processSample, freshFilter]
  norm_num

theorem clampC_eq_specClamp (v lo hi : ℝ) (h : lo ≤ hi) :
    clampC v lo hi = specClamp v lo hi := by
  unfold clampC specClamp
  rw [max_def, min_def]
  split_ifs <;> linarith

theorem clampC_bounds (v lo hi : ℝ) (h : lo ≤ hi) :
    lo ≤ clampC v lo hi ∧ clampC v lo hi ≤ hi := by
  unfold clampC
  constructor <;> (split_ifs <;> linarith)

theorem clampC_mono (v w lo hi : ℝ) (h : lo ≤ hi) (hvw : v ≤ w) :
    clampC v lo hi ≤ clampC w lo hi := by
  unfold clampC
  split_ifs <;> linarith

theorem frequencyOffsetFactor_mem (i N : ℕ) (h : i < N) :
    0 ≤ frequencyOffsetFactor i N ∧ frequencyOffsetFactor i N ≤ 1 := by
  unfold frequencyOffsetFactor
  by_cases h1 : N = 1
  · rw [if_pos h1]
    norm_num
  · rw [if_neg h1]
    have hN : 2 ≤ N := by omega
    have hd : (1 : ℝ) ≤ (N : ℝ) - 1 := by
      have h2 : (2 : ℝ) ≤ (N : ℝ) := by exact_mod_cast hN
      linarith
    have hi : (i : ℝ) ≤ (N : ℝ) - 1 := by
      have h2 : (i : ℝ) + 1 ≤ (N : ℝ) := by exact_mod_cast h
      linarith
    constructor
    · exact div_nonneg (Nat.cast_nonneg i) (by linarith)
    · rw [div_le_one (by linarith)]
      exact hi

theorem frequencyOffsetFactor_mono (i j N : ℕ) (hN : 2 ≤ N) (hij : i ≤ j) :
    frequencyOffsetFactor i N ≤ frequencyOffsetFactor j N := by
  unfold frequencyOffsetFactor
  rw [if_neg (show N ≠ 1 by omega), if_neg (show N ≠ 1 by omega)]
  have hd : (0 : ℝ) < (N : ℝ) - 1 := by
    have h2 : (2 : ℝ) ≤ (N : ℝ) := by exact_mod_cast hN
    linarith
  exact (div_le_div_iff_of_pos_right hd).mpr (by exact_mod_cast hij)

theorem frequencyOffsetFactor_zero (N : ℕ) (hN : 2 ≤ N) :
    frequencyOffsetFactor 0 N = 0 := by
  unfold frequencyOffsetFactor
  rw [if_neg (show N ≠ 1 by omega)]
  simp

theorem frequencyOffsetFactor_last (N : ℕ) (hN : 2 ≤ N) :
    frequencyOffsetFactor (N - 1) N = 1 := by
  unfold frequencyOffsetFactor
  rw [if_neg (show N ≠ 1 by omega)]
  have hd : (N : ℝ) - 1 ≠ 0 := by
    have h2 : (2 : ℝ) ≤ (N : ℝ) := by exact_mod_cast hN
    linarith
  rw [Nat.cast_sub (by omega), Nat.cast_one]
  exact div_self hd

theorem interp_mem (a b L H t : ℝ) (hLa : L ≤ a) (haH : a ≤ H) (hLb : L ≤ b)
    (hbH : b ≤ H) (ht0 : 0 ≤ t) (ht1 : t ≤ 1) :
    L ≤ a + (b - a) * t ∧ a + (b - a) * t ≤ H := by
  constructor <;>
    nlinarith [mul_nonneg ht0 (sub_nonneg.mpr hLb), mul_nonneg ht0 (sub_nonneg.mpr hbH),
      mul_nonneg (sub_nonneg.mpr ht1) (sub_nonneg.mpr hLa),
      mul_nonneg (sub_nonneg.mpr ht1) (sub_nonneg.mpr haH)]

theorem exp_interp_mem (a b L H t : ℝ) (hL : 0 < L) (hLa : L ≤ a) (haH : a ≤ H)
    (hLb : L ≤ b) (hbH : b ≤ H) (ht0 : 0 ≤ t) (ht1 : t ≤ 1) :
    L ≤ Real.exp (Real.log a + (Real.log b - Real.log a) * t) ∧
      Real.exp (Real.log a + (Real.log b - Real.log a) * t) ≤ H := by
  have ha : 0 < a := lt_of_lt_of_le hL hLa
  have hb : 0 < b := lt_of_lt_of_le hL hLb
  have hH : 0 < H := lt_of_lt_of_le hL (le_trans hLa haH)
  have h1 := interp_mem (Real.log a) (Real.log b) (Real.log L) (Real.log H) t
    (Real.log_le_log hL hLa) (Real.log_le_log ha haH) (Real.log_le_log hL hLb)
    (Real.log_le_log hb hbH) ht0 ht1
  constructor
  · have h2 := Real.exp_le_exp.mpr h1.1
    rwa [Real.exp_log hL] at h2
  · have h2 := Real.exp_le_exp.mpr h1.2
    rwa [Real.exp_log hH] at h2

/-- C2: for every center frequency, spread, sample rate with `5 ≤ fs/2.1` (the
precondition of `std::clamp`), stage index and stage count `N ≥ 1`, the stage
frequency computed by the source equals the spec's formula
`f_lo + t·(f_hi - f_lo)` (linear) / `exp(ln f_lo + t·(ln f_hi - ln f_lo))`
(logarithmic) with `t = (N == 1) ? 0.5 : i/(N-1)`. -/
theorem C2_spread_distribution (fs fc spread : ℝ) (linear : Bool) (i N : ℕ)
    (hN : 1 ≤ N) (hfs : 5 ≤ fs / 2.1) :
    stageFrequencySrc fs fc spread linear i N = stageFrequencySpec fs fc spread linear i N := by
  have hlo := clampC_eq_specClamp (fc - spread / 2) 5 (fs / 2.1) hfs
  have hhi := clampC_eq_specClamp (fc + spread / 2) 5 (fs / 2.1) hfs
  have hf : frequencyOffsetFactor i N = if N = 1 then 0.5 else (i : ℝ) / ((N : ℝ) - 1) := rfl
  cases linear with
  | true =>
    show minFilterFrequency fs fc spread +
        (maxFilterFrequency fs fc spread - minFilterFrequency fs fc spread) *
          frequencyOffsetFactor i N = _
    unfold minFilterFrequency maxFilterFrequency belowNyquist
    rw [hlo, hhi, hf]
    show _ = specClamp (fc - spread / 2) 5 (fs / 2.1) +
      (if N = 1 then 0.5 else (i : ℝ) / ((N : ℝ) - 1)) *
        (specClamp (fc + spread / 2) 5 (fs / 2.1) - specClamp (fc - spread / 2) 5 (fs / 2.1))
    ring
  | false =>
    show Real.exp (Real.log (minFilterFrequency fs fc spread) +
        (Real.log (maxFilterFrequency fs fc spread) -
            Real.log (minFilterFrequency fs fc spread)) *
          frequencyOffsetFactor i N) = _
    unfold minFilterFrequency maxFilterFrequency belowNyquist
    rw [hlo, hhi, hf]
    show _ = Real.exp (Real.log (specClamp (fc - spread / 2) 5 (fs / 2.1)) +
      (if N = 1 then 0.5 else (i : ℝ) / ((N : ℝ) - 1)) *
        (Real.log (specClamp (fc + spread / 2) 5 (fs / 2.1)) -
          Real.log (specClamp (fc - spread / 2) 5 (fs / 2.1))))
    congr 1
    ring

/-- Witness for C2 at fs = 44100 Hz, f_c = 200 Hz, spread = 100 Hz, stage 1 of 4. -/
theorem C2_spread_distribution_witness :
    (1 ≤ 4) ∧ (5 ≤ (44100 : ℝ) / 2.1) ∧
      stageFrequencySrc 44100 200 100 true 1 4 = stageFrequencySpec 44100 200 100 true 1 4 :=
  ⟨by norm_num, by norm_num,
    C2_spread_distribution 44100 200 100 true 1 4 (by norm_num) (by norm_num)⟩

/-- C3 (amended): in the per-stage path (the one taken when spread ≠ 0), every
frequency handed to the all-pass coefficient computation lies in
`[5, fs/2.1]`, provided `5 ≤ fs/2.1` (the `std::clamp` precondition) and the
stage index is in range.  (The spread = 0 path is NOT clamped; see the
counterexample.) -/
theorem C3_spread_path_clamped (fs freq spread : ℝ) (linear : Bool) (i N : ℕ)
    (hfs : 5 ≤ belowNyquist fs) (hiN : i < N) :
    5 ≤ stageFrequencySrc fs freq spread linear i N ∧
      stageFrequencySrc fs freq spread linear i N ≤ belowNyquist fs := by
  have hlo := clampC_bounds (freq - spread / 2) 5 (belowNyquist fs) hfs
  have hhi := clampC_bounds (freq + spread / 2) 5 (belowNyquist fs) hfs
  have ht := frequencyOffsetFactor_mem i N hiN
  cases linear with
  | true =>
    show 5 ≤ minFilterFrequency fs freq spread +
        (maxFilterFrequency fs freq spread - minFilterFrequency fs freq spread) *
          frequencyOffsetFactor i N ∧ _ ≤ belowNyquist fs
    exact interp_mem (minFilterFrequency fs freq spread) (maxFilterFrequency fs freq spread)
      5 (belowNyquist fs) (frequencyOffsetFactor i N) hlo.1 hlo.2 hhi.1 hhi.2 ht.1 ht.2
  | false =>
    show 5 ≤ Real.exp (Real.log (minFilterFrequency fs freq spread) +
        (Real.log (maxFilterFrequency fs freq spread) -
            Real.log (minFilterFrequency fs freq spread)) *
          frequencyOffsetFactor i N) ∧ _ ≤ belowNyquist fs
    exact exp_interp_mem (minFilterFrequency fs freq spread) (maxFilterFrequency fs freq spread)
      5 (belowNyquist fs) (frequencyOffsetFactor i N) (by norm_num) hlo.1 hlo.2 hhi.1 hhi.2
      ht.1 ht.2

/-- Witness for the amended C3 at fs = 44100 Hz, stage 0 of 1, logarithmic mode. -/
theorem C3_spread_path_clamped_witness :
    (5 ≤ belowNyquist 44100) ∧ (0 < 1) ∧
      (5 ≤ stageFrequencySrc 44100 200 100 false 0 1 ∧
        stageFrequencySrc 44100 200 100 false 0 1 ≤ belowNyquist 44100) :=
  ⟨by unfold belowNyquist; norm_num, by norm_num,
    C3_spread_path_clamped 44100 200 100 false 0 1 (by unfold belowNyquist; norm_num)
      (by norm_num)⟩

/-- C6: for spread > 0 and stage count N ≥ 2 (with the `std::clamp`
precondition `5 ≤ fs/2.1`), the per-stage cutoff frequencies are monotonically
ascending in the stage index and land exactly on `f_lo` at stage 0 and `f_hi`
at stage N-1, in both linear and logarithmic modes. -/
theorem C6_distribution_monotone (fs fc spread : ℝ) (linear : Bool) (N i j : ℕ)
    (hs : 0 < spread) (hN : 2 ≤ N) (hfs : 5 ≤ belowNyquist fs) (hij : i ≤ j) :
    stageFrequencySrc fs fc spread linear 0 N = minFilterFrequency fs fc spread ∧
    stageFrequencySrc fs fc spread linear (N - 1) N = maxFilterFrequency fs fc spread ∧
    stageFrequencySrc fs fc spread linear i N ≤ stageFrequencySrc fs fc spread linear j N := by
  have hlo := clampC_bounds (fc - spread / 2) 5 (belowNyquist fs) hfs
  have hhi := clampC_bounds (fc + spread / 2) 5 (belowNyquist fs) hfs
  have hlohi : minFilterFrequency fs fc spread ≤ maxFilterFrequency fs fc spread :=
    clampC_mono (fc - spread / 2) (fc + spread / 2) 5 (belowNyquist fs) hfs (by linarith)
  have hlopos : (0 : ℝ) < minFilterFrequency fs fc spread := by
    have := hlo.1
    show (0 : ℝ) < clampC (fc - spread / 2) 5 (belowNyquist fs)
    linarith
  have hhipos : (0 : ℝ) < maxFilterFrequency fs fc spread := by
    have := hhi.1
    show (0 : ℝ) < clampC (fc + spread / 2) 5 (belowNyquist fs)
    linarith
  have htmono := frequencyOffsetFactor_mono i j N hN hij
  have hloglo := Real.log_le_log hlopos hlohi
  cases linear with
  | true =>
    refine ⟨?_, ?_, ?_⟩
    · show minFilterFrequency fs fc spread +
        (maxFilterFrequency fs fc spread - minFilterFrequency fs fc spread) *
          frequencyOffsetFactor 0 N = _
      rw [frequencyOffsetFactor_zero N hN]
      ring
    · show minFilterFrequency fs fc spread +
        (maxFilterFrequency fs fc spread - minFilterFrequency fs fc spread) *
          frequencyOffsetFactor (N - 1) N = _
      rw [frequencyOffsetFactor_last N hN]
      ring
    · show minFilterFrequency fs fc spread +
        (maxFilterFrequency fs fc spread - minFilterFrequency fs fc spread) *
          frequencyOffsetFactor i N ≤ minFilterFrequency fs fc spread +
        (maxFilterFrequency fs fc spread - minFilterFrequency fs fc spread) *
          frequencyOffsetFactor j N
      nlinarith [mul_le_mul_of_nonneg_left htmono (sub_nonneg.mpr hlohi)]
  | false =>
    refine ⟨?_, ?_, ?_⟩
    · show Real.exp (Real.log (minFilterFrequency fs fc spread) +
        (Real.log (maxFilterFrequency fs fc spread) -
            Real.log (minFilterFrequency fs fc spread)) *
          frequencyOffsetFactor 0 N) = _
      rw [frequencyOffsetFactor_zero N hN, mul_zero, add_zero, Real.exp_log hlopos]
    · show Real.exp (Real.log (minFilterFrequency fs fc spread) +
        (Real.log (maxFilterFrequency fs fc spread) -
            Real.log (minFilterFrequency fs fc spread)) *
          frequencyOffsetFactor (N - 1) N) = _
      rw [frequencyOffsetFactor_last N hN, mul_one]
      rw [show Real.log (minFilterFrequency fs fc spread) +
          (Real.log (maxFilterFrequency fs fc spread) -
            Real.log (minFilterFrequency fs fc spread)) =
          Real.log (maxFilterFrequency fs fc spread) from by ring]
      exact Real.exp_log hhipos
    · show Real.exp (Real.log (minFilterFrequency fs fc spread) +
        (Real.log (maxFilterFrequency fs fc spread) -
            Real.log (minFilterFrequency fs fc spread)) *
          frequencyOffsetFactor i N) ≤ Real.exp (Real.log (minFilterFrequency fs fc spread) +
        (Real.log (maxFilterFrequency fs fc spread) -
            Real.log (minFilterFrequency fs fc spread)) *
          frequencyOffsetFactor j N)
      apply Real.exp_le_exp.mpr
      nlinarith [mul_le_mul_of_nonneg_left htmono (sub_nonneg.mpr hloglo)]

/-- Witness for C6 at fs = 44100 Hz, f_c = 1000 Hz, spread = 500 Hz, N = 3,
stages 0 ≤ 2, logarithmic mode. -/
theorem C6_distribution_monotone_witness :
    (0 < (500 : ℝ)) ∧ (2 ≤ 3) ∧ (5 ≤ belowNyquist 44100) ∧ (0 ≤ 2) ∧
      (stageFrequencySrc 44100 1000 500 false 0 3 = minFilterFrequency 44100 1000 500 ∧
       stageFrequencySrc 44100 1000 500 false (3 - 1) 3 = maxFilterFrequency 44100 1000 500 ∧
       stageFrequencySrc 44100 1000 500 false 0 3 ≤ stageFrequencySrc 44100 1000 500 false 2 3) :=
  ⟨by norm_num, by norm_num, by unfold belowNyquist; norm_num, by norm_num,
    C6_distribution_monotone 44100 1000 500 false 3 0 2 (by norm_num) (by norm_num)
      (by unfold belowNyquist; norm_num) (by norm_num)⟩

theorem listGetMap {α β : Type} (f : α → β) :
    ∀ (l : List α) (n : ℕ), (l.map f).get? n = (l.get? n).map f := by
  intro l
  induction l with
  | nil => intro n; rfl
  | cons a l ih =>
    intro n
    cases n with
    | zero => rfl
    | succ n => exact ih n

theorem listGetMem {α : Type} :
    ∀ (l : List α) (n : ℕ) (a : α), l.get? n = some a → a ∈ l := by
  intro l
  induction l with
  | nil =>
    intro n a h
    cases h
  | cons b l ih =>
    intro n a h
    cases n with
    | zero =>
      cases h
      exact List.mem_cons_self b l
    | succ n => exact List.mem_cons_of_mem b (ih n a h)

theorem listMemGet {α : Type} :
    ∀ (l : List α) (a : α), a ∈ l → ∃ n, l.get? n = some a := by
  intro l
  induction l with
  | nil =>
    intro a h
    cases h
  | cons b l ih =>
    intro a h
    cases h with
    | head => exact ⟨0, rfl⟩
    | tail _ h =>
      obtain ⟨n, hn⟩ := ih a h
      exact ⟨n + 1, hn⟩

/-- Elementwise description of the coefficient-update loop in the spread = 0
case: every surviving stage keeps its coefficients and all its filters are
re-pointed at stage 0. -/
theorem updateStagesAux_single_get (fs : ℝ) (freq res spread : ℚ) (lin : Bool) (N : ℕ) :
    ∀ (l : List FilterStage) (i k : ℕ),
      (updateStagesAux fs freq res spread lin true N i l).get? k =
        (l.get? k).map fun s =>
          { channels := s.channels.map fun fl => { fl with coeffRef := 0 }
          , coefficients := s.coefficients } := by
  intro l
  induction l with
  | nil => intro i k; rfl
  | cons s ss ih =>
    intro i k
    cases k with
    | zero => rfl
    | succ k => exact ih (i + 1) k

/-- `updateStages` with spread 0, on a nonempty stage list, elementwise. -/
theorem updateStages_single_get (fs : ℝ) (freq res : ℚ) (lin : Bool)
    (s0 : FilterStage) (rest : List FilterStage) (k : ℕ) :
    (updateStages fs freq res 0 lin (s0 :: rest)).get? k =
      ((({ s0 with coefficients := makeAllPass fs (freq : ℝ) (res : ℝ) } : FilterStage) ::
          rest).get? k).map fun s =>
        { channels := s.channels.map fun fl => { fl with coeffRef := 0 }
        , coefficients := s.coefficients } := by
  unfold updateStages
  rw [if_pos rfl]
  have hd : decide ((0 : ℚ) = 0) = true := by decide
  rw [hd]
  exact updateStagesAux_single_get fs freq res 0 lin ((s0 :: rest).length) _ 0 k

/-- C5: whenever the current spread equals 0 during a coefficient update on a
nonempty stage list, every filter of every stage is made to reference stage 0's
coefficient object, stage 0's coefficients are set from the current frequency
and resonance, stages beyond 0 keep their previous (uncomputed) coefficients,
and consequently every filter's effective coefficients equal stage 0's freshly
computed ones. -/
theorem C5_spread_zero_sharing (fs : ℝ) (freq res : ℚ) (lin : Bool)
    (stages : List FilterStage) (h : stages ≠ []) :
    (∀ s ∈ updateStages fs freq res 0 lin stages, ∀ fl ∈ s.channels, fl.coeffRef = 0) ∧
    ((updateStages fs freq res 0 lin stages).get? 0).map FilterStage.coefficients =
      some (makeAllPass fs (freq : ℝ) (res : ℝ)) ∧
    (∀ i, 1 ≤ i →
      ((updateStages fs freq res 0 lin stages).get? i).map FilterStage.coefficients =
        (stages.get? i).map FilterStage.coefficients) ∧
    (∀ s ∈ updateStages fs freq res 0 lin stages, ∀ fl ∈ s.channels,
      resolveCoeffs (updateStages fs freq res 0 lin stages) fl.coeffRef =
        makeAllPass fs (freq : ℝ) (res : ℝ)) := by
  cases stages with
  | nil => exact absurd rfl h
  | cons s0 rest =>
    have hget := updateStages_single_get fs freq res lin s0 rest
    have hrefs : ∀ s ∈ updateStages fs freq res 0 lin (s0 :: rest),
        ∀ fl ∈ s.channels, fl.coeffRef = 0 := by
      intro s hs fl hfl
      obtain ⟨n, hn⟩ := listMemGet _ s hs
      rw [hget n] at hn
      cases hsrc : (({ s0 with coefficients := makeAllPass fs (freq : ℝ) (res : ℝ) } :
          FilterStage) :: rest).get? n with
      | none =>
        rw [hsrc] at hn
        cases hn
      | some t =>
        rw [hsrc] at hn
        cases hn
        obtain ⟨fl0, hfl0, hfl0e⟩ := List.mem_map.mp hfl
        rw [← hfl0e]
    have hhead : ((updateStages fs freq res 0 lin (s0 :: rest)).get? 0).map
        FilterStage.coefficients = some (makeAllPass fs (freq : ℝ) (res : ℝ)) := by
      rw [hget 0]
      rfl
    refine ⟨hrefs, hhead, ?_, ?_⟩
    · intro i hi
      cases i with
      | zero => omega
      | succ j =>
        rw [hget (j + 1)]
        show ((rest.get? j).map _).map FilterStage.coefficients =
          (rest.get? j).map FilterStage.coefficients
        cases rest.get? j <;> rfl
    · intro s hs fl hfl
      rw [hrefs s hs fl hfl]
      unfold resolveCoeffs
      rw [hhead]
      rfl

/-- Witness for C5 at a concrete nonempty stage list. -/
theorem C5_spread_zero_sharing_witness :
    (([defaultStage] : List FilterStage) ≠ []) ∧
    ((∀ s ∈ updateStages 4 1 1 0 false [defaultStage], ∀ fl ∈ s.channels, fl.coeffRef = 0) ∧
     ((updateStages 4 1 1 0 false [defaultStage]).get? 0).map FilterStage.coefficients =
       some (makeAllPass 4 ((1 : ℚ) : ℝ) ((1 : ℚ) : ℝ)) ∧
     (∀ i, 1 ≤ i →
       ((updateStages 4 1 1 0 false [defaultStage]).get? i).map FilterStage.coefficients =
         (([defaultStage] : List FilterStage).get? i).map FilterStage.coefficients) ∧
     (∀ s ∈ updateStages 4 1 1 0 false [defaultStage], ∀ fl ∈ s.channels,
       resolveCoeffs (updateStages 4 1 1 0 false [defaultStage]) fl.coeffRef =
         makeAllPass 4 ((1 : ℚ) : ℝ) ((1 : ℚ) : ℝ))) :=
  ⟨List.cons_ne_nil _ _,
    C5_spread_zero_sharing 4 1 1 false [defaultStage] (List.cons_ne_nil _ _)⟩

/-- C3 counterexample: at sample rate 8000 Hz with spread 0, the frequency
passed to the all-pass coefficient computation is the raw smoothed frequency
(here 20000 Hz, inside the parameter's legal range), which is NOT inside
`[5, fs/2.1]`: the spread = 0 branch of `processBlock` performs no clamping. -/
theorem C3_unclamped_counterexample :
    ((updateStages 8000 20000 (1 / 2) 0 false [defaultStage]).get? 0).map
        FilterStage.coefficients =
      some (makeAllPass 8000 ((20000 : ℚ) : ℝ) (((1 : ℚ) / 2 : ℚ) : ℝ)) ∧
    ¬ (((20000 : ℚ) : ℝ) ≤ belowNyquist 8000) := by
  constructor
  · rw [updateStages_single_get 8000 20000 (1 / 2) false defaultStage [] 0]
    rfl
  · unfold belowNyquist
    push_cast
    norm_num

/-- C4 counterexample: a concrete state whose frequency smoother is mid-ramp
(`isSmoothing = true`, 3 steps remaining) but whose recompute countdown is
still positive, so `processBlock`'s per-sample iteration leaves the smoother
completely unchanged — whereas advancing it one step (as the claim asserts
happens on every sample) would have decremented its step counter. -/
theorem C4_smoother_not_advanced_counterexample :
    cexState.smFreq.isSmoothing = true ∧
    (processSampleStep sampleCtx cexState []).1.smFreq = cexState.smFreq ∧
    ((cexState.smFreq.advance).2).steps_remaining ≠ cexState.smFreq.steps_remaining := by
  refine ⟨by decide, ?_, by decide⟩
  show (if shouldApplySmoothing cexState then (cexState.smFreq.advance).2
    else cexState.smFreq) = cexState.smFreq
  have h : shouldApplySmoothing cexState = false := by decide
  rw [h]
  rfl

/-- C4 (amended): the smoothers advance one step exactly on the samples where
`should_apply_smoothing` holds (countdown expired and some smoother still
ramping); on all other samples `getCurrentValue` is used and the ramp state is
untouched, the ramp timing instead being pre-compensated by the
`sampleRate / smoothing_interval` ramp set up in `prepareToPlay`. -/
theorem C4_throttled_smoother_advance (ctx : Ctx) (st : ProcState) (xs : List ℝ) :
    (processSampleStep ctx st xs).1.smFreq.steps_remaining =
      (if shouldApplySmoothing st then st.smFreq.steps_remaining - 1
       else st.smFreq.steps_remaining) ∧
    (processSampleStep ctx st xs).1.smRes.steps_remaining =
      (if shouldApplySmoothing st then st.smRes.steps_remaining - 1
       else st.smRes.steps_remaining) ∧
    (processSampleStep ctx st xs).1.smSpread.steps_remaining =
      (if shouldApplySmoothing st then st.smSpread.steps_remaining - 1
       else st.smSpread.steps_remaining) := by
  refine ⟨?_, ?_, ?_⟩
  · show (if shouldApplySmoothing st then (st.smFreq.advance).2
      else st.smFreq).steps_remaining = _
    by_cases h : shouldApplySmoothing st = true
    · rw [if_pos h, if_pos h, Smoother.advance_steps]
    · rw [if_neg h, if_neg h]
  · show (if shouldApplySmoothing st then (st.smRes.advance).2
      else st.smRes).steps_remaining = _
    by_cases h : shouldApplySmoothing st = true
    · rw [if_pos h, if_pos h, Smoother.advance_steps]
    · rw [if_neg h, if_neg h]
  · show (if shouldApplySmoothing st then (st.smSpread.advance).2
      else st.smSpread).steps_remaining = _
    by_cases h : shouldApplySmoothing st = true
    · rw [if_pos h, if_pos h, Smoother.advance_steps]
    · rw [if_neg h, if_neg h]

/-- C8: the background rebuild leaves `is_initialized = false`; on the first
sample processed in that state (with a nonempty stage list) the update
condition fires, the stage list used for filtering is the freshly recomputed
one (never the stale placeholder one), the cascade output is computed from it,
and afterwards `is_initialized = true`. -/
theorem C8_init_forces_recompute (nS nOut : ℕ) (f : Filters) (ctx : Ctx)
    (st : ProcState) (xs : List ℝ)
    (h1 : st.filters.is_initialized = false) (h2 : st.filters.stages ≠ []) :
    (updateAndSwapFilters nS nOut f).is_initialized = false ∧
    shouldUpdateFilters ctx.spread_linear st = true ∧
    stagesForSample ctx st =
      updateStages ctx.fs (currentFrequency st) (currentResonance st) (currentSpread st)
        ctx.spread_linear st.filters.stages ∧
    (processSampleStep ctx st xs).1.filters.is_initialized = true ∧
    (processSampleStep ctx st xs).2 =
      (processCascade (resolveCoeffs (stagesForSample ctx st)) ctx.input_channels
        (stagesForSample ctx st) xs).2 := by
  have hsu : shouldUpdateFilters ctx.spread_linear st = true := by
    unfold shouldUpdateFilters
    rw [h1]
    rfl
  refine ⟨rfl, hsu, ?_, rfl, rfl⟩
  unfold stagesForSample
  rw [hsu]
  have hne : st.filters.stages.isEmpty = false := by
    cases hh : st.filters.stages with
    | nil => exact absurd hh h2
    | cons a l => rfl
  rw [hne]
  rw [if_pos (show (true && !false) = true from rfl)]

/-- Witness for C8 at a concrete freshly-rebuilt state. -/
theorem C8_init_forces_recompute_witness :
    (initState.filters.is_initialized = false) ∧ (initState.filters.stages ≠ []) ∧
    ((updateAndSwapFilters 3 2 ⟨true, []⟩).is_initialized = false ∧
     shouldUpdateFilters sampleCtx.spread_linear initState = true ∧
     stagesForSample sampleCtx initState =
       updateStages sampleCtx.fs (currentFrequency initState) (currentResonance initState)
         (currentSpread initState) sampleCtx.spread_linear initState.filters.stages ∧
     (processSampleStep sampleCtx initState []).1.filters.is_initialized = true ∧
     (processSampleStep sampleCtx initState []).2 =
       (processCascade (resolveCoeffs (stagesForSample sampleCtx initState))
         sampleCtx.input_channels (stagesForSample sampleCtx initState) []).2) :=
  ⟨rfl, List.cons_ne_nil _ _,
    C8_init_forces_recompute 3 2 ⟨true, []⟩ sampleCtx initState [] rfl
      (List.cons_ne_nil _ _)⟩

theorem updateStages_nil (fs : ℝ) (freq res spread : ℚ) (lin : Bool) :
    updateStages fs freq res spread lin [] = [] := by
  unfold updateStages
  by_cases h : spread = 0
  · rw [if_pos h]
    rfl
  · rw [if_neg h]
    rfl

theorem clearRow_id (n : ℕ) : ∀ (c : ℕ) (xs : List ℝ), clearRow n n c xs = xs := by
  intro c xs
  induction xs generalizing c with
  | nil => rfl
  | cons x xs ih =>
    show (if n ≤ c ∧ c < n then (0 : ℝ) else x) :: clearRow n n (c + 1) xs = x :: xs
    rw [if_neg (by omega), ih (c + 1)]

theorem map_clearRow_id (n : ℕ) (block : List (List ℝ)) :
    block.map (clearRow n n 0) = block := by
  induction block with
  | nil => rfl
  | cons r rs ih =>
    show clearRow n n 0 r :: rs.map (clearRow n n 0) = r :: rs
    rw [clearRow_id n 0 r, ih]

theorem processSampleStep_empty (ctx : Ctx) (st : ProcState) (xs : List ℝ)
    (h : st.filters.stages = []) :
    (processSampleStep ctx st xs).2 = xs ∧
      (processSampleStep ctx st xs).1.filters.stages = [] := by
  have hsf : stagesForSample ctx st = [] := by
    unfold stagesForSample
    rw [h, updateStages_nil, ite_self]
  constructor
  · show (processCascade (resolveCoeffs (stagesForSample ctx st)) ctx.input_channels
      (stagesForSample ctx st) xs).2 = xs
    rw [hsf]
    rfl
  · show (processCascade (resolveCoeffs (stagesForSample ctx st)) ctx.input_channels
      (stagesForSample ctx st) xs).1 = []
    rw [hsf]
    rfl

theorem processSamples_empty_stages (ctx : Ctx) :
    ∀ (rows : List (List ℝ)) (st : ProcState), st.filters.stages = [] →
      (processSamples ctx st rows).2 = rows := by
  intro rows
  induction rows with
  | nil => intro st h; rfl
  | cons r rs ih =>
    intro st h
    have hstep := processSampleStep_empty ctx st r h
    show (processSampleStep ctx st r).2 ::
      (processSamples ctx (processSampleStep ctx st r).1 rs).2 = r :: rs
    rw [hstep.1, ih _ hstep.2]

/-- C7: with stage count 0 and matching input/output channel counts (the only
layouts `isBusesLayoutSupported` accepts), `processBlock` leaves the buffer
bit-identical to its input, for any input block and any parameter targets. -/
theorem C7_zero_stages_passthrough (ctx : Ctx) (outCh : ℕ) (fT rT sT : ℚ)
    (st : ProcState) (block : List (List ℝ))
    (h0 : st.filters.stages = []) (hio : ctx.input_channels = outCh) :
    (processBlock ctx outCh fT rT sT st block).2 = block := by
  unfold processBlock
  rw [hio, map_clearRow_id]
  exact processSamples_empty_stages ctx block _ h0

/-- Witness for C7 at a concrete two-channel block. -/
theorem C7_zero_stages_passthrough_witness :
    (emptyState.filters.stages = []) ∧ (sampleCtx2.input_channels = 2) ∧
      (processBlock sampleCtx2 2 300 1 0 emptyState [[1, 2], [3, 4]]).2 = [[1, 2], [3, 4]] :=
  ⟨rfl, rfl,
    C7_zero_stages_passthrough sampleCtx2 2 300 1 0 emptyState [[1, 2], [3, 4]] rfl rfl⟩

theorem processStageChannels_skip (resolve : ℕ → Coeffs) (iC : ℕ) :
    ∀ (fls : List IIRFilter) (c : ℕ) (xs : List ℝ) (j : ℕ), iC ≤ c + j →
      (processStageChannels resolve iC c fls xs).1.get? j = fls.get? j ∧
      (processStageChannels resolve iC c fls xs).2.get? j = xs.get? j := by
  intro fls
  induction fls with
  | nil =>
    intro c xs j hj
    exact ⟨rfl, rfl⟩
  | cons f fls ih =>
    intro c xs j hj
    cases xs with
    | nil => exact ⟨rfl, rfl⟩
    | cons x xs =>
      have heq : processStageChannels resolve iC c (f :: fls) (x :: xs) =
          if c < iC then
            ((IIRFilter.processSample (resolve f.coeffRef) f x).2 ::
              (processStageChannels resolve iC (c + 1) fls xs).1,
             (IIRFilter.processSample (resolve f.coeffRef) f x).1 ::
              (processStageChannels resolve iC (c + 1) fls xs).2)
          else
            (f :: (processStageChannels resolve iC (c + 1) fls xs).1,
             x :: (processStageChannels resolve iC (c + 1) fls xs).2) := rfl
      rw [heq]
      by_cases hc : c < iC
      · rw [if_pos hc]
        cases j with
        | zero => omega
        | succ j =>
          have hrec := ih (c + 1) xs j (by omega)
          exact ⟨hrec.1, hrec.2⟩
      · rw [if_neg hc]
        cases j with
        | zero => exact ⟨rfl, rfl⟩
        | succ j =>
          have hrec := ih (c + 1) xs j (by omega)
          exact ⟨hrec.1, hrec.2⟩

theorem processCascade_skip (resolve : ℕ → Coeffs) (iC : ℕ) :
    ∀ (stages : List FilterStage) (xs : List ℝ) (j : ℕ), iC ≤ j →
      (processCascade resolve iC stages xs).2.get? j = xs.get? j := by
  intro stages
  induction stages with
  | nil => intro xs j hj; rfl
  | cons s ss ih =>
    intro xs j hj
    show (processCascade resolve iC ss
      (processStageChannels resolve iC 0 s.channels xs).2).2.get? j = xs.get? j
    rw [ih _ j hj]
    exact (processStageChannels_skip resolve iC s.channels 0 xs j (by omega)).2

theorem updateStagesAux_hist (fs : ℝ) (freq res spread : ℚ) (lin single : Bool) (N : ℕ) :
    ∀ (l : List FilterStage) (i k c : ℕ),
      histAt (updateStagesAux fs freq res spread lin single N i l) k c = histAt l k c := by
  intro l
  induction l with
  | nil => intro i k c; rfl
  | cons s ss ih =>
    intro i k c
    cases k with
    | zero =>
      show ((s.channels.map fun fl =>
          { fl with coeffRef := if single then 0 else i }).get? c).map filterHist =
        (s.channels.get? c).map filterHist
      rw [listGetMap]
      cases s.channels.get? c <;> rfl
    | succ k => exact ih (i + 1) k c

theorem updateStages_hist (fs : ℝ) (freq res spread : ℚ) (lin : Bool)
    (stages : List FilterStage) (k c : ℕ) :
    histAt (updateStages fs freq res spread lin stages) k c = histAt stages k c := by
  unfold updateStages
  rw [updateStagesAux_hist]
  by_cases h : spread = 0
  · rw [if_pos h]
    cases stages with
    | nil => rfl
    | cons s ss =>
      cases k with
      | zero => rfl
      | succ k => rfl
  · rw [if_neg h]

theorem processCascade_hist (resolve : ℕ → Coeffs) (iC : ℕ) :
    ∀ (stages : List FilterStage) (xs : List ℝ) (k c : ℕ), iC ≤ c →
      histAt (processCascade resolve iC stages xs).1 k c = histAt stages k c := by
  intro stages
  induction stages with
  | nil => intro xs k c hc; rfl
  | cons s ss ih =>
    intro xs k c hc
    cases k with
    | zero =>
      show ((processStageChannels resolve iC 0 s.channels xs).1.get? c).map filterHist =
        (s.channels.get? c).map filterHist
      rw [(processStageChannels_skip resolve iC s.channels 0 xs c (by omega)).1]
    | succ k =>
      exact ih (processStageChannels resolve iC 0 s.channels xs).2 k c hc

theorem processSampleStep_skip (ctx : Ctx) (st : ProcState) (xs : List ℝ) (j : ℕ)
    (hj : ctx.input_channels ≤ j) :
    (processSampleStep ctx st xs).2.get? j = xs.get? j := by
  show (processCascade (resolveCoeffs (stagesForSample ctx st)) ctx.input_channels
    (stagesForSample ctx st) xs).2.get? j = xs.get? j
  exact processCascade_skip _ _ (stagesForSample ctx st) xs j hj

theorem processSampleStep_hist (ctx : Ctx) (st : ProcState) (xs : List ℝ) (k c : ℕ)
    (hc : ctx.input_channels ≤ c) :
    histAt (processSampleStep ctx st xs).1.filters.stages k c =
      histAt st.filters.stages k c := by
  show histAt (processCascade (resolveCoeffs (stagesForSample ctx st)) ctx.input_channels
    (stagesForSample ctx st) xs).1 k c = histAt st.filters.stages k c
  rw [processCascade_hist _ _ _ _ k c hc]
  unfold stagesForSample
  by_cases hb : (shouldUpdateFilters ctx.spread_linear st &&
      !st.filters.stages.isEmpty) = true
  · rw [if_pos hb]
    exact updateStages_hist _ _ _ _ _ _ k c
  · rw [if_neg hb]

theorem processSamples_get (ctx : Ctx) (j : ℕ) (hj : ctx.input_channels ≤ j) :
    ∀ (rows : List (List ℝ)) (st : ProcState) (i : ℕ) (row : List ℝ),
      (processSamples ctx st rows).2.get? i = some row →
      ∃ r0, rows.get? i = some r0 ∧ row.get? j = r0.get? j := by
  intro rows
  induction rows with
  | nil =>
    intro st i row h
    cases h
  | cons r rs ih =>
    intro st i row h
    cases i with
    | zero =>
      have hrow : (processSampleStep ctx st r).2 = row := Option.some.inj h
      refine ⟨r, rfl, ?_⟩
      rw [← hrow]
      exact processSampleStep_skip ctx st r j hj
    | succ i => exact ih _ i row h

theorem processSamples_hist (ctx : Ctx) (k c : ℕ) (hc : ctx.input_channels ≤ c) :
    ∀ (rows : List (List ℝ)) (st : ProcState),
      histAt (processSamples ctx st rows).1.filters.stages k c =
        histAt st.filters.stages k c := by
  intro rows
  induction rows with
  | nil => intro st; rfl
  | cons r rs ih =>
    intro st
    show histAt (processSamples ctx (processSampleStep ctx st r).1 rs).1.filters.stages
      k c = _
    rw [ih _, processSampleStep_hist ctx st r k c hc]

theorem clearRow_get (iC oC : ℕ) :
    ∀ (xs : List ℝ) (c j : ℕ), iC ≤ c + j → c + j < oC → j < xs.length →
      (clearRow iC oC c xs).get? j = some 0 := by
  intro xs
  induction xs with
  | nil =>
    intro c j h1 h2 h3
    simp at h3
  | cons x xs ih =>
    intro c j h1 h2 h3
    cases j with
    | zero =>
      show some (if iC ≤ c ∧ c < oC then (0 : ℝ) else x) = some 0
      rw [if_pos ⟨by omega, by omega⟩]
    | succ j =>
      show (clearRow iC oC (c + 1) xs).get? j = some 0
      have h3l : j < xs.length := by
        simp only [List.length_cons] at h3
        omega
      exact ih (c + 1) j (by omega) (by omega) h3l

theorem rebuildStagesAux_channels_len (numOut : ℕ) :
    ∀ (l : List FilterStage) (i : ℕ) (s : FilterStage),
      s ∈ rebuildStagesAux numOut i l → s.channels.length = numOut := by
  intro l
  induction l with
  | nil =>
    intro i s hs
    cases hs
  | cons t ts ih =>
    intro i s hs
    cases hs with
    | head =>
      show (List.replicate numOut (freshFilter i)).length = numOut
      exact List.length_replicate numOut (freshFilter i)
    | tail _ h => exact ih (i + 1) s h

/-- C10: output-only channels (indices in `[input_channels, output_channels)`)
are zeroed at the top of `processBlock` and never touched again (so the
corresponding entries of every output sample vector are 0), the filter cascade
reads and writes only channels below the input count (so the filter histories
of every channel at or beyond the input count are unchanged by the whole
block), and the background rebuild sizes every stage's filter vector to the
output channel count. -/
theorem C10_channel_frame (ctx : Ctx) (outCh : ℕ) (fT rT sT : ℚ) (st : ProcState)
    (block : List (List ℝ)) (nS : ℕ) (f0 : Filters)
    (hlen : ∀ row ∈ block, outCh ≤ row.length) :
    (∀ i j row, ctx.input_channels ≤ j → j < outCh →
      (processBlock ctx outCh fT rT sT st block).2.get? i = some row →
      row.get? j = some 0) ∧
    (∀ k c, ctx.input_channels ≤ c →
      histAt (processBlock ctx outCh fT rT sT st block).1.filters.stages k c =
        histAt st.filters.stages k c) ∧
    (∀ s ∈ (updateAndSwapFilters nS outCh f0).stages, s.channels.length = outCh) := by
  refine ⟨?_, ?_, ?_⟩
  · intro i j row hj hjo hrow
    unfold processBlock at hrow
    obtain ⟨r0, hr0, hjr⟩ := processSamples_get ctx j hj _ _ i row hrow
    rw [listGetMap] at hr0
    cases hb : block.get? i with
    | none =>
      rw [hb] at hr0
      cases hr0
    | some br =>
      rw [hb] at hr0
      have hr0e : clearRow ctx.input_channels outCh 0 br = r0 := Option.some.inj hr0
      have hbr : outCh ≤ br.length := hlen br (listGetMem block i br hb)
      rw [hjr, ← hr0e]
      exact clearRow_get ctx.input_channels outCh br 0 j (by omega) (by omega) (by omega)
  · intro k c hc
    unfold processBlock
    exact processSamples_hist ctx k c hc _ _
  · intro s hs
    exact rebuildStagesAux_channels_len outCh _ 0 s hs

/-- Witness for C10 at a concrete one-input-channel, two-output-channel block. -/
theorem C10_channel_frame_witness :
    (∀ row ∈ ([[5, 7]] : List (List ℝ)), 2 ≤ row.length) ∧
    ((∀ i j row, sampleCtx.input_channels ≤ j → j < 2 →
        (processBlock sampleCtx 2 300 1 0 emptyState [[5, 7]]).2.get? i = some row →
        row.get? j = some 0) ∧
     (∀ k c, sampleCtx.input_channels ≤ c →
        histAt (processBlock sampleCtx 2 300 1 0 emptyState [[5, 7]]).1.filters.stages k c =
          histAt emptyState.filters.stages k c) ∧
     (∀ s ∈ (updateAndSwapFilters 3 2 ⟨true, []⟩).stages, s.channels.length = 2)) :=
  ⟨by
    intro row hrow
    rw [List.mem_singleton] at hrow
    rw [hrow]
    simp,
   C10_channel_frame sampleCtx 2 300 1 0 emptyState [[5, 7]] 3 ⟨true, []⟩ (by
    intro row hrow
    rw [List.mem_singleton] at hrow
    rw [hrow]
    simp)⟩

end Diopser
